import Mathlib

/-!
Verification of the Expression repository (src/rep/MathExpr.hpp): a generic
symbolic-algebra engine with an AST over a numeric domain `T`, a shunting-yard
infix parser, an evaluator, a symbolic differentiator with local simplification,
and complex-literal helpers.

The shallow embedding below translates the C++ source into Lean:
  * the class hierarchy `ConstantNode / VariableNode / BinaryOperationNode /
    FunctionNode` becomes the inductive `Node`;
  * the compile-time type parameter `T` (with the `if constexpr` special cases
    for `std::complex`) becomes an explicit `NumDomain` record of the numeric
    capabilities the code uses (arithmetic, zero/one tests, the imaginary-unit
    special case, the `ln` domain guard, constant formatting);
  * `long double` / `std::complex<long double>` values are modelled exactly by
    `ℚ` / `ℚ × ℚ`; the transcendental library functions (`std::sin`, `std::cos`,
    `std::exp`, `std::log`, and `std::pow` on complex numbers) are abstracted as
    parameters (`Transc`), since no claim below depends on their values;
    `std::pow` on the real domain is modelled by `powQ`, which is exact on
    integer exponents and so ignores `long double` rounding, underflow and
    overflow; the only theorems that depend on real `pow` values are C4's
    evaluations of small integer powers, which are exact in `long double` too,
    while C1's amended guarantee is stated over shapes whose `simplifyDivide`
    calls succeed without inspecting any folded value;
  * thrown exceptions become `Except` error values; popping an empty
    `std::stack` (undefined behaviour in C++) is modelled by the distinguished
    outcome `PErr.ub`;
  * `std::string` becomes `List Char` (ASCII, as the C locale character
    classification functions treat it).
-/

/-- Models `std::isspace` (C locale): space and the five control whitespace
characters 0x09..0x0d. -/
def isSpaceC (c : Char) : Bool :=
  decide (c.toNat = 32 ∨ (9 ≤ c.toNat ∧ c.toNat ≤ 13))

/-- Models `std::isdigit` (C locale). -/
def isDigitC (c : Char) : Bool :=
  decide (48 ≤ c.toNat ∧ c.toNat ≤ 57)

/-- Models `std::isalpha` (C locale): ASCII letters. -/
def isAlphaC (c : Char) : Bool :=
  decide ((97 ≤ c.toNat ∧ c.toNat ≤ 122) ∨ (65 ≤ c.toNat ∧ c.toNat ≤ 90))

/-- The character class scanned as part of a numeric literal by
`parseExpression`: `std::isdigit(c) || c == '.'`. -/
def numC (c : Char) : Bool := isDigitC c || c = '.'

/-- Numeric value of a digit character (used to model `std::stold`). -/
def digitVal (c : Char) : ℕ := c.toNat - 48

/-- Value of a most-significant-digit-first run of digit characters. -/
def digitsToNat (ds : List Char) : ℕ :=
  ds.foldl (fun acc c => 10 * acc + digitVal c) 0

/-!
Exact rational arithmetic. The standard `ℚ` operations of Batteries are marked
irreducible, which would block kernel evaluation of the concrete witnesses
below, so the model uses the following definitionally-reducing equivalents
(each is proved equal to the standard operation; the equations let the
abstract proofs use the ordinary `ℚ` theory).
-/

/-- Reducible rational addition (equal to `· + ·` by `qadd_eq`). -/
def qadd (a b : ℚ) : ℚ := mkRat (a.num * b.den + b.num * a.den) (a.den * b.den)

/-- Reducible rational subtraction. -/
def qsub (a b : ℚ) : ℚ := mkRat (a.num * b.den - b.num * a.den) (a.den * b.den)

/-- Reducible rational multiplication. -/
def qmul (a b : ℚ) : ℚ := mkRat (a.num * b.num) (a.den * b.den)

/-- Reducible rational inverse. -/
def qinv (a : ℚ) : ℚ := Rat.divInt a.den a.num

/-- Reducible rational division. -/
def qdiv (a b : ℚ) : ℚ := qmul a (qinv b)

/-- Reducible rational natural power. -/
def qpow (a : ℚ) : ℕ → ℚ
  | 0 => 1
  | n + 1 => qmul (qpow a n) a

theorem qadd_eq (a b : ℚ) : qadd a b = a + b := (Rat.add_def' a b).symm

theorem qsub_eq (a b : ℚ) : qsub a b = a - b := (Rat.sub_def' a b).symm

theorem qmul_eq (a b : ℚ) : qmul a b = a * b := by
  rw [Rat.mul_def, Rat.normalize_eq_mkRat]; rfl

theorem qinv_eq (a : ℚ) : qinv a = a⁻¹ := (Rat.inv_def a).symm

theorem qdiv_eq (a b : ℚ) : qdiv a b = a / b := by
  rw [Rat.div_def, qdiv, qmul_eq, qinv_eq]; rfl

theorem qpow_eq (a : ℚ) (n : ℕ) : qpow a n = a ^ n := by
  induction n with
  | zero => rfl
  | succ n ih => rw [qpow, qmul_eq, ih, pow_succ]

/-- The decimal digit character for `n ≤ 9` (used to model `std::to_string`). -/
def digitC (n : ℕ) : Char :=
  match n with
  | 0 => '0' | 1 => '1' | 2 => '2' | 3 => '3' | 4 => '4'
  | 5 => '5' | 6 => '6' | 7 => '7' | 8 => '8' | _ => '9'

/-- Least-significant-first decimal digit characters of `n`; the first
argument is fuel making the recursion structural (any fuel `≥ n` is enough,
since the argument at least halves each step). -/
def natCharsAux : ℕ → ℕ → List Char
  | 0, _ => []
  | _, 0 => []
  | fuel + 1, n + 1 => digitC ((n + 1) % 10) :: natCharsAux fuel ((n + 1) / 10)

/-- Decimal digit string of a natural number, most significant digit first,
at least one digit (as `printf`-style formatting produces). -/
def natChars (n : ℕ) : List Char :=
  if n = 0 then ['0'] else (natCharsAux n n).reverse

/-- Pads a digit run on the left with zeros to width 6 (the fractional part of
`%Lf` formatting). -/
def padLeft6 (ds : List Char) : List Char :=
  List.replicate (6 - ds.length) '0' ++ ds

/-- Core of `std::to_string` for a non-negative value: `%Lf` fixed formatting
with six fractional digits. On the values the theorems below touch, `q·10⁶` is
an integer, where this model is exact (rounding of other values is modelled as
round-half-up; no claim depends on that case). -/
def fmtCore (q : ℚ) : List Char :=
  let n : ℕ := (Rat.floor (qadd (qmul q 1000000) (mkRat 1 2))).toNat
  natChars (n / 1000000) ++ '.' :: padLeft6 (natChars (n % 1000000))

/-- Models `std::to_string(long double)`: `%Lf` formatting, six fractional
digits, `-` sign for negative values. -/
def fmtFixed6 (q : ℚ) : List Char :=
  if q < 0 then '-' :: fmtCore (-q) else fmtCore q

/-- Models `complexToString`: `"(" + to_string(re) + "," + to_string(im) + ")"`. -/
def complexToString (c : ℚ × ℚ) : List Char :=
  '(' :: (fmtFixed6 c.1 ++ ',' :: (fmtFixed6 c.2 ++ [')']))

/-- Models `std::stold` / `std::stod` on the inputs this program feeds them:
optional leading whitespace, optional sign, then the longest
`digits [. digits]` prefix (trailing characters are ignored, exactly as the
C functions do); `none` models the `std::invalid_argument` exception raised
when no conversion can be performed. Exponent notation never occurs in this
program's call sites and is not modelled. This is the sign step: an optional
leading `'+'`/`'-'` and the sign it denotes. -/
def stodSign (s1 : List Char) : ℚ × List Char :=
  match s1 with
  | [] => (1, [])
  | c :: r =>
    if c = '+' then (1, r) else if c = '-' then (-1, r) else (1, c :: r)

/-- The digits step of the `std::stod` model: longest `digits [. digits]`
prefix after the sign, combined with the sign `sg`. -/
def stodBody (sg : ℚ) (s2 : List Char) : Option ℚ :=
  let ip := List.takeWhile isDigitC s2
  let r2 := List.dropWhile isDigitC s2
  match r2 with
  | c :: r3 =>
    if c = '.' then
      let fp := List.takeWhile isDigitC r3
      if ip = [] ∧ fp = [] then none
      else
        some (qmul sg
          (qadd (digitsToNat ip : ℚ) (qdiv (digitsToNat fp : ℚ) (qpow 10 fp.length))))
    else if ip = [] then none else some (qmul sg (digitsToNat ip : ℚ))
  | [] => if ip = [] then none else some (qmul sg (digitsToNat ip : ℚ))

/-- Models `std::stold` / `std::stod` (see `stodSign`, `stodBody`). -/
def stodQ (s : List Char) : Option ℚ :=
  let sgn := stodSign (List.dropWhile isSpaceC s)
  stodBody sgn.1 sgn.2

/-- The binary-operator tags a `BinaryOperationNode` can carry on any path the
program constructs (`NodeType::Add/Subtract/Multiply/Divide/Power`); the
remaining `NodeType` tags reach only the defensive `default:` throws. -/
inductive BOp where
  | add | sub | mul | div | pow
  deriving DecidableEq

/-- The function tags a `FunctionNode` can carry
(`NodeType::Sin/Cos/Ln/Exp`). -/
inductive FTag where
  | sin | cos | ln | exp
  deriving DecidableEq

/-- The AST: `ConstantNode`, `VariableNode`, `BinaryOperationNode`,
`FunctionNode` over a numeric domain carrier `α`. (`Expression<T>` is a
value-semantics wrapper around one such tree; since `copy()` is a structural
deep copy and trees are immutable, copies are identities in this model.) -/
inductive Node (α : Type) where
  | const (v : α)
  | var (name : List Char)
  | binop (op : BOp) (l r : Node α)
  | fn (t : FTag) (a : Node α)
  deriving DecidableEq

/-- Evaluation errors: the `std::runtime_error`s thrown by `eval` and by
`simplifyDivide` ("Variable '<name>' not found", "Division by zero",
"Ln domain error"). -/
inductive EErr where
  | varNotFound (name : List Char)
  | divByZero
  | lnDomain
  deriving DecidableEq

/-- Parser outcomes other than success. The first five constructors are the
exceptions thrown by `parseExpression` ("Invalid character in input",
"Invalid expression", "Invalid operator", "Invalid function", and the
`std::invalid_argument` escaping from `std::stold`). `ub` models a call of
`top()`/`pop()` on an empty `std::stack`, which is undefined behaviour in C++
(not an exception). `outOfFuel` is an artefact of the fuel-based recursion
and is unreachable from `parseExpression` (which supplies sufficient fuel;
see `scan_fuel_irrelevant`). -/
inductive PErr where
  | invalidChar
  | invalidExpr
  | invalidOp
  | invalidFunc
  | stoldFail
  | ub
  | outOfFuel
  deriving DecidableEq

/-- The transcendental library functions the code calls on domain values;
their values are irrelevant to every claim, so they are kept abstract. -/
structure Transc (α : Type) where
  sinF : α → α
  cosF : α → α
  expF : α → α
  lnF : α → α

/-- The capability set the generic C++ code uses from its type parameter `T`:
the constants `T(0), T(1), T(-1), T(2)` it constructs, arithmetic, `std::pow`,
the transcendentals, the `ln` domain guard (`argVal <= T(0)`, compiled out for
complex `T`), the `if constexpr (is_same_v<T, Complex>)` special value for the
variable `"i"`, the `static_cast<T>` from a parsed `long double` literal, and
the `std::to_string`-style constant formatting used by `toString`. -/
structure NumDomain (α : Type) where
  zero : α
  one : α
  negOne : α
  two : α
  add : α → α → α
  sub : α → α → α
  mul : α → α → α
  div : α → α → α
  pow : α → α → α
  sinF : α → α
  cosF : α → α
  expF : α → α
  lnF : α → α
  lnBad : α → Bool
  iVal : Option α
  ofReal : ℚ → α
  fmt : α → List Char

/-- Models `std::pow` on the real domain by the exact rational power on
integer exponents (non-integer exponents generally produce irrational values
outside this model and are mapped to 0; no claim depends on them). The model
deliberately ignores `long double` rounding, underflow and overflow: e.g.
`std::pow(c, 2)` is exactly 0 for tiny nonzero `c` (≈ below 1e-2466) while
`powQ c 2` is not. The only theorems that rest on real `pow` values are C4's
evaluations of small integer powers, exact in `long double` as well; C1's
amended guarantee excludes every shape on which a folded `pow` value could
reach a throwing comparison, so it holds independently of this model. -/
def powQ (a b : ℚ) : ℚ :=
  if b.den = 1 then
    (if 0 ≤ b.num then qpow a b.num.toNat else qinv (qpow a (-b.num).toNat))
  else 0

/-- The real domain `T = long double`, modelled exactly by `ℚ`. -/
def RealDom (t : Transc ℚ) : NumDomain ℚ where
  zero := 0
  one := 1
  negOne := -1
  two := 2
  add := qadd
  sub := qsub
  mul := qmul
  div := qdiv
  pow := powQ
  sinF := t.sinF
  cosF := t.cosF
  expF := t.expF
  lnF := t.lnF
  lnBad := fun a => decide (a ≤ 0)
  iVal := none
  ofReal := id
  fmt := fmtFixed6

/-- The complex domain `T = std::complex<long double>`, modelled exactly by
`ℚ × ℚ`; `pw` abstracts `std::pow(complex, complex)`. -/
def ComplexDom (t : Transc (ℚ × ℚ)) (pw : ℚ × ℚ → ℚ × ℚ → ℚ × ℚ) :
    NumDomain (ℚ × ℚ) where
  zero := (0, 0)
  one := (1, 0)
  negOne := (-1, 0)
  two := (2, 0)
  add := fun a b => (qadd a.1 b.1, qadd a.2 b.2)
  sub := fun a b => (qsub a.1 b.1, qsub a.2 b.2)
  mul := fun a b => (qsub (qmul a.1 b.1) (qmul a.2 b.2), qadd (qmul a.1 b.2) (qmul a.2 b.1))
  div := fun a b =>
    let den := qadd (qmul b.1 b.1) (qmul b.2 b.2)
    (qdiv (qadd (qmul a.1 b.1) (qmul a.2 b.2)) den,
     qdiv (qsub (qmul a.2 b.1) (qmul a.1 b.2)) den)
  pow := pw
  sinF := t.sinF
  cosF := t.cosF
  expF := t.expF
  lnF := t.lnF
  lnBad := fun _ => false
  iVal := some (0, 1)
  ofReal := fun q => (q, 0)
  fmt := complexToString

/-- A dummy instantiation of the abstract real-domain transcendentals, used
only to form concrete domains in closed statements whose truth does not depend
on these functions. -/
def trZ : Transc ℚ := ⟨fun _ => 0, fun _ => 0, fun _ => 0, fun _ => 0⟩

/-- Dummy complex transcendentals (same role as `trZ`). -/
def trC : Transc (ℚ × ℚ) :=
  ⟨fun _ => (0, 0), fun _ => (0, 0), fun _ => (0, 0), fun _ => (0, 0)⟩

/-- Dummy complex `std::pow` (same role as `trZ`). -/
def pwC : ℚ × ℚ → ℚ × ℚ → ℚ × ℚ := fun _ _ => (0, 0)

/-- Models `std::map<std::string, T>::find` on the bindings (keys unique). -/
def lookupVar {α : Type} (name : List Char) : List (List Char × α) → Option α
  | [] => none
  | (k, v) :: rest => if k = name then some v else lookupVar name rest

/-- Models `isZero`: `dynamic_pointer_cast<ConstantNode>` succeeding and the
constant's value comparing equal to `T(0)`. -/
def isZero {α : Type} [DecidableEq α] (d : NumDomain α) : Node α → Bool
  | .const v => decide (v = d.zero)
  | _ => false

/-- Models `isOne`. -/
def isOne {α : Type} [DecidableEq α] (d : NumDomain α) : Node α → Bool
  | .const v => decide (v = d.one)
  | _ => false

/-- Models `simplifyAdd`. -/
def simplifyAdd {α : Type} [DecidableEq α] (d : NumDomain α) (l r : Node α) :
    Node α :=
  if isZero d l then r
  else if isZero d r then l
  else
    match l, r with
    | .const a, .const b => .const (d.add a b)
    | _, _ => .binop .add l r

/-- Models `simplifyMultiply`. -/
def simplifyMultiply {α : Type} [DecidableEq α] (d : NumDomain α)
    (l r : Node α) : Node α :=
  if isOne d l then r
  else if isOne d r then l
  else if isZero d l || isZero d r then .const d.zero
  else
    match l, r with
    | .const a, .const b => .const (d.mul a b)
    | _, _ => .binop .mul l r

/-- Models `simplifyDivide`; the `.error` case is its
`throw std::runtime_error("Division by zero")`. -/
def simplifyDivide {α : Type} [DecidableEq α] (d : NumDomain α)
    (l r : Node α) : Except EErr (Node α) :=
  if isOne d r then .ok l
  else if isZero d l then .ok (.const d.zero)
  else
    match l, r with
    | .const a, .const b =>
      if b = d.zero then .error .divByZero else .ok (.const (d.div a b))
    | _, _ => .ok (.binop .div l r)

/-- Models `simplifyPower`. -/
def simplifyPower {α : Type} [DecidableEq α] (d : NumDomain α)
    (l r : Node α) : Node α :=
  if isOne d r then l
  else if isZero d r then .const d.one
  else
    match l, r with
    | .const a, .const b => .const (d.pow a b)
    | _, _ => .binop .pow l r

/-- Models `Node::eval` (virtual dispatch over the four node classes):
`ConstantNode::eval`, `VariableNode::eval` (with the complex-domain special
case for the name `"i"`), `BinaryOperationNode::eval` (left child first, then
right, then the operator, with the exact-zero divisor check), and
`FunctionNode::eval` (with the real-only `ln` domain guard). -/
def evalN {α : Type} [DecidableEq α] (d : NumDomain α) :
    Node α → List (List Char × α) → Except EErr α
  | .const v, _ => .ok v
  | .var name, vars =>
    match d.iVal with
    | some u =>
      if name = ['i'] then .ok u
      else
        match lookupVar name vars with
        | some v => .ok v
        | none => .error (.varNotFound name)
    | none =>
      match lookupVar name vars with
      | some v => .ok v
      | none => .error (.varNotFound name)
  | .binop op l r, vars => do
    let lv ← evalN d l vars
    let rv ← evalN d r vars
    match op with
    | .add => .ok (d.add lv rv)
    | .sub => .ok (d.sub lv rv)
    | .mul => .ok (d.mul lv rv)
    | .div => if rv = d.zero then .error .divByZero else .ok (d.div lv rv)
    | .pow => .ok (d.pow lv rv)
  | .fn t a, vars => do
    let av ← evalN d a vars
    match t with
    | .sin => .ok (d.sinF av)
    | .cos => .ok (d.cosF av)
    | .exp => .ok (d.expF av)
    | .ln => if d.lnBad av then .error .lnDomain else .ok (d.lnF av)

/-- Models `nodeTypeToString` on the five binary-operator tags. -/
def opChar : BOp → Char
  | .add => '+' | .sub => '-' | .mul => '*' | .div => '/' | .pow => '^'

/-- Models `nodeTypeToString` on the four function tags. -/
def fnName : FTag → List Char
  | .sin => "sin".toList
  | .cos => "cos".toList
  | .ln => "ln".toList
  | .exp => "exp".toList

/-- Models `Node::toString`: constants format via the domain
(`std::to_string` / `complexToString`), variables print their name, binary
operations print `"(" + left + op + right + ")"`, functions print
`name ++ "(" ++ arg ++ ")"`. -/
def toStringN {α : Type} (d : NumDomain α) : Node α → List Char
  | .const v => d.fmt v
  | .var n => n
  | .binop op l r =>
    '(' :: (toStringN d l ++ opChar op :: (toStringN d r ++ [')']))
  | .fn t a => fnName t ++ '(' :: (toStringN d a ++ [')'])

/-- Models `Node::diff` (the dispatch over `ConstantNode::diff`,
`VariableNode::diff`, `BinaryOperationNode::diff`, `FunctionNode::diff`).
Both `diff` overloads first differentiate the children (left before right),
then build the result through the simplifiers; `simplifyDivide` is the only
simplifier that can throw, so its calls are sequenced in the `Except` monad in
the order C++ evaluates them. -/
def diffN {α : Type} [DecidableEq α] (d : NumDomain α) :
    Node α → List Char → Except EErr (Node α)
  | .const _, _ => .ok (.const d.zero)
  | .var name, v => .ok (.const (if name = v then d.one else d.zero))
  | .binop op l r, v => do
    let dl ← diffN d l v
    let dr ← diffN d r v
    match op with
    | .add => .ok (simplifyAdd d dl dr)
    | .sub => .ok (simplifyAdd d dl (simplifyMultiply d (.const d.negOne) dr))
    | .mul =>
      .ok (simplifyAdd d (simplifyMultiply d dl r) (simplifyMultiply d l dr))
    | .div =>
      let num := simplifyAdd d (simplifyMultiply d dl r)
        (simplifyMultiply d (.const d.negOne) (simplifyMultiply d l dr))
      let den := simplifyPower d r (.const d.two)
      simplifyDivide d num den
    | .pow => do
      let q ← simplifyDivide d dl l
      .ok (simplifyMultiply d (simplifyPower d l r)
        (simplifyAdd d (simplifyMultiply d dr (.fn .ln l))
          (simplifyMultiply d r q)))
  | .fn t a, v => do
    let da ← diffN d a v
    match t with
    | .sin => .ok (simplifyMultiply d (.fn .cos a) da)
    | .cos =>
      .ok (simplifyMultiply d
        (simplifyMultiply d (.const d.negOne) (.fn .sin a)) da)
    | .exp => .ok (simplifyMultiply d (.fn .exp a) da)
    | .ln => do
      let q ← simplifyDivide d (.const d.one) a
      .ok (simplifyMultiply d q da)

/-- Models `getPrecedence`. -/
def getPrecedence (op : Char) : ℕ :=
  if op = '^' then 4
  else if op = '*' ∨ op = '/' then 3
  else if op = '+' ∨ op = '-' then 2
  else 0

/-- Models `isOperator`. -/
def isOperator (c : Char) : Bool :=
  decide (c = '+' ∨ c = '-' ∨ c = '*' ∨ c = '/' ∨ c = '^')

/-- The fixed function-name set of `isFunction`. -/
def funcNames : List (List Char) :=
  ["sin".toList, "cos".toList, "exp".toList, "ln".toList]

/-- Models `isFunction`. -/
def isFunction (tok : List Char) : Bool := decide (tok ∈ funcNames)

/-- The three parser stacks of `parseExpression` (`values`, `operators`,
`functions`), with the most recently pushed element at the head. -/
structure St (α : Type) where
  vs : List (Node α)
  ops : List Char
  fns : List (List Char)

/-- The body of `applyOperation` after the operator has been popped: pop the
right value, pop the left value, build the `BinaryOperationNode`, push it.
`top()` on an empty value stack is `PErr.ub`; an operator character outside
the five cases (only `'('` can reach this) is the
`throw std::runtime_error("Invalid operator")` in the `default:` branch —
note C++ pops both values before reaching the `switch`. -/
def applyOp1 {α : Type} (op : Char) (vs : List (Node α)) :
    Except PErr (List (Node α)) :=
  match vs with
  | right :: rest =>
    match rest with
    | left :: rest2 =>
      if op = '+' then .ok (.binop .add left right :: rest2)
      else if op = '-' then .ok (.binop .sub left right :: rest2)
      else if op = '*' then .ok (.binop .mul left right :: rest2)
      else if op = '/' then .ok (.binop .div left right :: rest2)
      else if op = '^' then .ok (.binop .pow left right :: rest2)
      else .error .invalidOp
    | [] => .error .ub
  | [] => .error .ub

/-- The body of `applyFunction` after the function name has been popped:
pop the argument (undefined behaviour if the value stack is empty), wrap it in
the matching `FunctionNode`, push it. -/
def applyFn1 {α : Type} (f : List Char) (vs : List (Node α)) :
    Except PErr (List (Node α)) :=
  match vs with
  | arg :: rest =>
    if f = "sin".toList then .ok (.fn .sin arg :: rest)
    else if f = "cos".toList then .ok (.fn .cos arg :: rest)
    else if f = "exp".toList then .ok (.fn .exp arg :: rest)
    else if f = "ln".toList then .ok (.fn .ln arg :: rest)
    else .error .invalidFunc
  | [] => .error .ub

/-- The operator-case loop of `parseExpression`:
`while (!operators.empty() && getPrecedence(top) >= getPrecedence(cur))
applyOperation();`. -/
def popWhileGE {α : Type} (cur : Char) :
    List (Node α) → List Char → Except PErr (List (Node α) × List Char)
  | vs, [] => .ok (vs, [])
  | vs, op :: ops =>
    if getPrecedence cur ≤ getPrecedence op then
      match applyOp1 op vs with
      | .ok vs1 => popWhileGE cur vs1 ops
      | .error e => .error e
    else .ok (vs, op :: ops)

/-- The close-paren loop of `parseExpression`:
`while (!operators.empty() && top != '(') applyOperation(); operators.pop();`
— if the operator stack runs out without a `'('`, the final `pop()` acts on an
empty `std::stack`, which is undefined behaviour (`PErr.ub`). -/
def popUntilParen {α : Type} :
    List (Node α) → List Char → Except PErr (List (Node α) × List Char)
  | _, [] => .error .ub
  | vs, op :: ops =>
    if op = '(' then .ok (vs, ops)
    else
      match applyOp1 op vs with
      | .ok vs1 => popUntilParen vs1 ops
      | .error e => .error e

/-- The final loop of `parseExpression`:
`while (!operators.empty()) applyOperation();`. -/
def drainOps {α : Type} :
    List (Node α) → List Char → Except PErr (List (Node α))
  | vs, [] => .ok vs
  | vs, op :: ops =>
    match applyOp1 op vs with
    | .ok vs1 => drainOps vs1 ops
    | .error e => .error e

/-- The character-scanning loop of `parseExpression`, fuelled to make the
recursion structural (each step consumes at least one input character, so any
fuel of at least the input length gives identical results — see
`scan_fuel_irrelevant`; `parseExpression` passes the input length).
Branches, in source order: skip whitespace; lex a digit/dot run and push the
`stold` value as a `ConstantNode`; lex a letter run and push it on the
function stack (if in the function set) or as a `VariableNode`; push `'('`;
on `')'` pop-and-apply to the matching `'('` and then apply one pending
function name if any; on an operator pop-and-apply while the stack top has
greater-or-equal precedence, then push; any other character throws
"Invalid character in input". -/
def scan {α : Type} [DecidableEq α] (d : NumDomain α) :
    ℕ → List Char → St α → Except PErr (St α)
  | _, [], st => .ok st
  | 0, _ :: _, _ => .error .outOfFuel
  | fuel + 1, c :: rest, st =>
    if isSpaceC c then scan d fuel rest st
    else if numC c then
      match stodQ (c :: List.takeWhile numC rest) with
      | some q =>
        scan d fuel (List.dropWhile numC rest)
          ⟨.const (d.ofReal q) :: st.vs, st.ops, st.fns⟩
      | none => .error .stoldFail
    else if isAlphaC c then
      let tok := c :: List.takeWhile isAlphaC rest
      if isFunction tok then
        scan d fuel (List.dropWhile isAlphaC rest)
          ⟨st.vs, st.ops, tok :: st.fns⟩
      else
        scan d fuel (List.dropWhile isAlphaC rest)
          ⟨.var tok :: st.vs, st.ops, st.fns⟩
    else if c = '(' then scan d fuel rest ⟨st.vs, '(' :: st.ops, st.fns⟩
    else if c = ')' then
      match popUntilParen st.vs st.ops with
      | .error e => .error e
      | .ok (vs1, ops1) =>
        match st.fns with
        | [] => scan d fuel rest ⟨vs1, ops1, []⟩
        | f :: fns1 =>
          match applyFn1 f vs1 with
          | .ok vs2 => scan d fuel rest ⟨vs2, ops1, fns1⟩
          | .error e => .error e
    else if isOperator c then
      match popWhileGE c st.vs st.ops with
      | .ok (vs1, ops1) => scan d fuel rest ⟨vs1, c :: ops1, st.fns⟩
      | .error e => .error e
    else .error .invalidChar

/-- Models `parseExpression<T>`: scan the input with three empty stacks, drain
the remaining operators, and require exactly one value on the stack
(otherwise `throw std::runtime_error("Invalid expression")`). -/
def parseExpression {α : Type} [DecidableEq α] (d : NumDomain α)
    (input : List Char) : Except PErr (Node α) :=
  match scan d input.length input ⟨[], [], []⟩ with
  | .error e => .error e
  | .ok st =>
    match drainOps st.vs st.ops with
    | .error e => .error e
    | .ok [e] => .ok e
    | .ok _ => .error .invalidExpr

/-- The per-position admissibility test inside the `is_complex` loop: the
found `'i'` is not adjacent to another letter, its left neighbour is the
string start, whitespace, a digit, `'-'` or `'.'`, and its right neighbour is
the string end, whitespace or a digit. -/
def iTokenAt (s : List Char) (pos : ℕ) : Bool :=
  let prev := s.getD (pos - 1) ' '
  let next := s.getD (pos + 1) ' '
  let partOfOther :=
    (decide (0 < pos) && isAlphaC prev) ||
    (decide (pos < s.length - 1) && isAlphaC next)
  if partOfOther then false
  else
    (decide (pos = 0) || isSpaceC prev || isDigitC prev ||
      decide (prev = '-') || decide (prev = '.')) &&
    (decide (pos = s.length - 1) || isSpaceC next || isDigitC next)

/-- Models `is_complex`: the `while`/`find` loop visits every position of
`'i'` in increasing order and returns true as soon as one passes `iTokenAt`,
i.e. exactly when some position does. -/
def is_complex (s : List Char) : Bool :=
  (List.range s.length).any fun pos => decide (s.getD pos ' ' = 'i') && iTokenAt s pos

/-- Models `std::string::find_last_of("+-", bound)` : the largest position
`j ≤ bound` holding `'+'` or `'-'`, if any. -/
def findLastSign (s : List Char) (bound : ℕ) : Option ℕ :=
  (List.range s.length).foldl
    (fun acc j =>
      if j ≤ bound ∧ (s.getD j ' ' = '+' ∨ s.getD j ' ' = '-') then some j
      else acc)
    none

/-- The `empty / "+" / "-" / stod` coefficient rule applied to the imaginary
part in `ParseComplex`. -/
def imagCoeff (p : List Char) : Option ℚ :=
  if p = [] ∨ p = ['+'] then some 1
  else if p = ['-'] then some (-1)
  else stodQ p

/-- Models `ParseComplex`. `i_pos - 1` and `i_pos - sign_pos` are `size_t`
subtractions: when `i_pos = 0` they wrap to a huge value, so the sign search
covers the whole string and `substr(sign_pos, huge)` takes to the end — both
wraps are modelled explicitly. `none` models the `std::invalid_argument`
thrown by `std::stod`. -/
def ParseComplex (s : List Char) : Option (ℚ × ℚ) :=
  match List.findIdx? (fun c => c = 'i') s with
  | none => (stodQ s).map fun v => (v, 0)
  | some ipos =>
    let bound := if ipos = 0 then s.length else ipos - 1
    match findLastSign s bound with
    | none => do
      let im ← imagCoeff (s.take ipos)
      some (0, im)
    | some sp => do
      let realPart := s.take sp
      let imagPart :=
        if sp ≤ ipos then (s.drop sp).take (ipos - sp) else s.drop sp
      let re ← if realPart = [] then some 0 else stodQ realPart
      let im ← imagCoeff imagPart
      some (re, im)

/-- Modelled from the spec's words (for comparison with `is_complex`): the
claim's boundary rule applies "string start/end, whitespace, digit, `-`, or
`.`" to the right neighbour as well as to the left one. -/
def iTokenAtSpec (s : List Char) (pos : ℕ) : Bool :=
  let prev := s.getD (pos - 1) ' '
  let next := s.getD (pos + 1) ' '
  let partOfOther :=
    (decide (0 < pos) && isAlphaC prev) ||
    (decide (pos < s.length - 1) && isAlphaC next)
  if partOfOther then false
  else
    (decide (pos = 0) || isSpaceC prev || isDigitC prev ||
      decide (prev = '-') || decide (prev = '.')) &&
    (decide (pos = s.length - 1) || isSpaceC next || isDigitC next ||
      decide (next = '-') || decide (next = '.'))

/-- Modelled from the spec's words: `detectDomain` returning Complex exactly
when some occurrence of `'i'` passes the claim's boundary rule
(`iTokenAtSpec`). -/
def is_complexSpec (s : List Char) : Bool :=
  (List.range s.length).any fun pos =>
    decide (s.getD pos ' ' = 'i') && iTokenAtSpec s pos

/-- Modelled from the spec's words (for comparison with `ParseComplex`): split
at the last `'+'`/`'-'` occurring strictly before the located `'i'` — the
bound `ipos - 1` is here an ordinary natural subtraction, so for `ipos = 0`
no sign is found and the imaginary part is the (empty) prefix before `'i'`. -/
def specParseComplex (s : List Char) : Option (ℚ × ℚ) :=
  match List.findIdx? (fun c => c = 'i') s with
  | none => (stodQ s).map fun v => (v, 0)
  | some ipos =>
    match findLastSign s (ipos - 1) with
    | none => do
      let im ← imagCoeff (s.take ipos)
      some (0, im)
    | some sp => do
      let realPart := s.take sp
      let imagPart := (s.drop sp).take (ipos - sp)
      let re ← if realPart = [] then some 0 else stodQ realPart
      let im ← imagCoeff imagPart
      some (re, im)

/-- Claim C4: the operator loop pops while the stack top's precedence is
greater than or equal to the current one (with the table `^`=4, `*`,`/`=3,
`+`,`-`=2), so `"2^3^2"` parses left-associatively as `(2^3)^2` and evaluates
to 64, not 512. (Stated in the real domain; the abstracted transcendental
functions of `trZ` play no part in parsing or in `pow` evaluation.) -/
theorem c4_pow_left_assoc :
    parseExpression (RealDom trZ) "2^3^2".toList =
      .ok (.binop .pow (.binop .pow (.const 2) (.const 3)) (.const 2)) ∧
    evalN (RealDom trZ)
      (.binop .pow (.binop .pow (.const 2) (.const 3)) (.const 2)) [] =
      .ok 64 ∧
    (64 : ℚ) ≠ 512 ∧
    getPrecedence '^' = 4 ∧ getPrecedence '*' = 3 ∧ getPrecedence '/' = 3 ∧
    getPrecedence '+' = 2 ∧ getPrecedence '-' = 2 :=
  ⟨rfl, rfl, by decide, rfl, rfl, rfl, rfl, rfl⟩

/-- Claim C10: a scanned function name that no `')'` pops is silently
discarded — `parse("sin x")` succeeds and returns just the variable `x`, not
`sin(x)` and not a parse error. -/
theorem c10_dangling_function_name :
    parseExpression (RealDom trZ) "sin x".toList = .ok (.var ['x']) := rfl

/-- Claim C8: in the complex domain the variable `"i"` evaluates to the
imaginary unit under every binding map — the map is never consulted for this
name (so also under a map that binds `"i"` to another value), and no
variable-not-found error can arise for it. -/
theorem c8_imaginary_unit (t : Transc (ℚ × ℚ)) (pw : ℚ × ℚ → ℚ × ℚ → ℚ × ℚ)
    (vars : List (List Char × (ℚ × ℚ))) :
    evalN (ComplexDom t pw) (.var ['i']) vars = .ok (0, 1) := rfl

/-- Claim C2 is wrong about the code: on the malformed inputs `"+1"` and a
lone `")"`, `parseExpression` does not fail with a ParseError exception — it
calls `top()`/`pop()` on an empty `std::stack`, which is undefined behaviour
(modelled by the outcome `PErr.ub`, distinct from every exception outcome). -/
theorem c2_underflow_not_parse_error :
    parseExpression (RealDom trZ) "+1".toList = .error .ub ∧
    parseExpression (RealDom trZ) ")".toList = .error .ub ∧
    (PErr.ub ≠ PErr.invalidChar ∧ PErr.ub ≠ PErr.invalidExpr ∧
     PErr.ub ≠ PErr.invalidOp ∧ PErr.ub ≠ PErr.invalidFunc ∧
     PErr.ub ≠ PErr.stoldFail) :=
  ⟨rfl, rfl, by decide⟩

/-- Claim C6: `diff` of `Power(base, exp)` is exactly the generalized
logarithmic-differentiation combination
`simplifyMultiply(simplifyPower(base, exp), simplifyAdd(simplifyMultiply(
diff(exp), Ln(base)), simplifyMultiply(exp, simplifyDivide(diff(base),
base))))`, sequencing the two recursive calls (left child first) and the
fallible `simplifyDivide` exactly as the code does — for every domain, every
base and exponent subtree, and every variable name. -/
theorem c6_power_rule {α : Type} [DecidableEq α] (d : NumDomain α)
    (b e : Node α) (v : List Char) :
    diffN d (.binop .pow b e) v =
      (diffN d b v).bind fun db =>
      (diffN d e v).bind fun de =>
      (simplifyDivide d db b).bind fun q =>
      Except.ok (simplifyMultiply d (simplifyPower d b e)
        (simplifyAdd d (simplifyMultiply d de (.fn .ln b))
          (simplifyMultiply d e q))) := rfl

/-- Counterexample to claim C1: `diff` can fail on well-formed input built
from the supported node set — on the parse result of `"ln(0)"` (the very
input the claim names) it throws "Division by zero" from `simplifyDivide`'s
constant folding. -/
theorem c1_counterexample :
    parseExpression (RealDom trZ) "ln(0)".toList =
      .ok (.fn .ln (.const 0)) ∧
    diffN (RealDom trZ) (.fn .ln (.const 0)) "x".toList =
      .error .divByZero :=
  ⟨rfl, rfl⟩

/-- Counterexample to claim C5's "if and only if": for
`Divide(Variable "x", Constant 0)` under the empty binding map the right
child evaluates to the domain zero, yet `eval` fails with the
variable-not-found error (raised while evaluating the left child first), not
with the division-by-zero error. -/
theorem c5_counterexample :
    evalN (RealDom trZ) (.binop .div (.var ['x']) (.const 0)) [] =
      .error (.varNotFound ['x']) ∧
    evalN (RealDom trZ) (Node.const (0 : ℚ)) [] = .ok 0 ∧
    EErr.varNotFound ['x'] ≠ EErr.divByZero :=
  ⟨rfl, rfl, by decide⟩

/-- Claim C5, amended: for a `Divide` node whose two children both evaluate
successfully, `eval` fails with the division-by-zero error exactly when the
right child's value equals the domain zero, and otherwise returns the
quotient of the children's values (in any domain). -/
theorem c5_divide_amended {α : Type} [DecidableEq α] (d : NumDomain α)
    (l r : Node α) (vars : List (List Char × α)) (a b : α)
    (hl : evalN d l vars = .ok a) (hr : evalN d r vars = .ok b) :
    (evalN d (.binop .div l r) vars = .error .divByZero ↔ b = d.zero) ∧
    (b ≠ d.zero → evalN d (.binop .div l r) vars = .ok (d.div a b)) := by
  have hstep : evalN d (.binop .div l r) vars =
      (if b = d.zero then .error .divByZero else .ok (d.div a b)) := by
    have hunfold : evalN d (.binop .div l r) vars =
        (evalN d l vars).bind fun lv =>
        (evalN d r vars).bind fun rv =>
        if rv = d.zero then .error .divByZero else .ok (d.div lv rv) := rfl
    rw [hunfold, hl, hr]
    rfl
  refine ⟨⟨fun h => ?_, fun hb => by rw [hstep, if_pos hb]⟩,
    fun hb => by rw [hstep, if_neg hb]⟩
  by_contra hb
  rw [hstep, if_neg hb] at h
  exact Except.noConfusion h

/-- Witness for C5 (amended) at `"1 / 0"` in the real domain: both children
evaluate, the right one to the domain zero, and evaluation fails with the
division-by-zero error. -/
theorem c5_divide_amended_witness :
    evalN (RealDom trZ) (.binop .div (.const 1) (.const 0)) [] =
      .error .divByZero :=
  ((c5_divide_amended (RealDom trZ) (.const 1) (.const 0) [] 1 0 rfl rfl).1).2 rfl

/-- Counterexample to claim C3: the round trip fails in the complex domain.
`parse("3")` succeeds, its stringification is `"(3.000000,0.000000)"` (the
`(re,im)` constant form), and reparsing that string fails with the
invalid-character ParseError at the comma — no reparsed AST exists at all,
let alone one evaluating like the original. -/
theorem c3_counterexample :
    parseExpression (ComplexDom trC pwC) "3".toList =
      .ok (.const ((3 : ℚ), (0 : ℚ))) ∧
    toStringN (ComplexDom trC pwC) (.const ((3 : ℚ), (0 : ℚ))) =
      "(3.000000,0.000000)".toList ∧
    parseExpression (ComplexDom trC pwC) "(3.000000,0.000000)".toList =
      .error .invalidChar :=
  ⟨rfl, rfl, rfl⟩

/-- Counterexample to claim C7: in `"i-1"` the `'i'` is non-adjacent to
letters and both neighbours satisfy the claim's boundary rule (the right
neighbour is `'-'`, which the claim lists as a boundary), yet `is_complex`
returns false — the code's right-neighbour rule accepts only string end,
whitespace or a digit. -/
theorem c7_counterexample :
    is_complex "i-1".toList = false ∧ is_complexSpec "i-1".toList = true :=
  ⟨rfl, rfl⟩

/-- The per-position test of `is_complex`, characterized: not letter-adjacent,
left boundary is start/whitespace/digit/`'-'`/`'.'`, right boundary is
end/whitespace/digit (no `'-'`/`'.'` on the right). -/
theorem iTokenAt_iff (s : List Char) (pos : ℕ) :
    iTokenAt s pos = true ↔
      ((pos = 0 ∨ isAlphaC (s.getD (pos - 1) ' ') = false) ∧
       (s.length - 1 ≤ pos ∨ isAlphaC (s.getD (pos + 1) ' ') = false)) ∧
      (pos = 0 ∨ isSpaceC (s.getD (pos - 1) ' ') = true ∨
        isDigitC (s.getD (pos - 1) ' ') = true ∨
        s.getD (pos - 1) ' ' = '-' ∨ s.getD (pos - 1) ' ' = '.') ∧
      (pos = s.length - 1 ∨ isSpaceC (s.getD (pos + 1) ' ') = true ∨
        isDigitC (s.getD (pos + 1) ' ') = true) := by
  unfold iTokenAt
  by_cases h1 : (decide (0 < pos) && isAlphaC (s.getD (pos - 1) ' ')
      || decide (pos < s.length - 1) && isAlphaC (s.getD (pos + 1) ' ')) = true
  · rw [if_pos h1]
    simp only [Bool.or_eq_true, Bool.and_eq_true, decide_eq_true_eq] at h1
    constructor
    · exact fun h => Bool.noConfusion h
    rintro ⟨⟨ha, hb⟩, -, -⟩
    exfalso
    rcases h1 with ⟨hp, hal⟩ | ⟨hp, hal⟩
    · rcases ha with h | h
      · omega
      · rw [h] at hal; exact Bool.noConfusion hal
    · rcases hb with h | h
      · omega
      · rw [h] at hal; exact Bool.noConfusion hal
  · rw [if_neg h1]
    simp only [Bool.or_eq_true, Bool.and_eq_true, decide_eq_true_eq, not_or,
      not_and, Bool.not_eq_true] at h1
    obtain ⟨hL, hR⟩ := h1
    simp only [Bool.and_eq_true, Bool.or_eq_true, decide_eq_true_eq, or_assoc]
    constructor
    · rintro ⟨hA, hB⟩
      refine ⟨⟨?_, ?_⟩, hA, hB⟩
      · rcases Nat.eq_zero_or_pos pos with h | h
        · exact Or.inl h
        · exact Or.inr (hL h)
      · by_cases h : pos < s.length - 1
        · exact Or.inr (hR h)
        · exact Or.inl (by omega)
    · rintro ⟨_, hA, hB⟩
      exact ⟨hA, hB⟩

/-- Claim C7, amended: `detectDomain` selects the complex domain exactly when
some occurrence of `'i'` is not adjacent to another letter, its left
neighbour is the string start, whitespace, a digit, `'-'` or `'.'`, and its
right neighbour is the string end, whitespace or a digit — the `'-'` and
`'.'` boundary cases apply only on the left, unlike the claim's symmetric
rule. Identifiers merely containing `'i'` still never select the complex
domain (their `'i'`s are letter-adjacent or fail the boundary rules). -/
theorem c7_detect_amended (s : List Char) :
    is_complex s = true ↔
      ∃ pos, pos < s.length ∧ s.getD pos ' ' = 'i' ∧
        (((pos = 0 ∨ isAlphaC (s.getD (pos - 1) ' ') = false) ∧
          (s.length - 1 ≤ pos ∨ isAlphaC (s.getD (pos + 1) ' ') = false)) ∧
         (pos = 0 ∨ isSpaceC (s.getD (pos - 1) ' ') = true ∨
           isDigitC (s.getD (pos - 1) ' ') = true ∨
           s.getD (pos - 1) ' ' = '-' ∨ s.getD (pos - 1) ' ' = '.') ∧
         (pos = s.length - 1 ∨ isSpaceC (s.getD (pos + 1) ' ') = true ∨
           isDigitC (s.getD (pos + 1) ' ') = true)) := by
  unfold is_complex
  rw [List.any_eq_true]
  constructor
  · rintro ⟨pos, hmem, h⟩
    rw [List.mem_range] at hmem
    rw [Bool.and_eq_true, decide_eq_true_eq] at h
    exact ⟨pos, hmem, h.1, (iTokenAt_iff s pos).mp h.2⟩
  · rintro ⟨pos, hlt, hi, hcond⟩
    refine ⟨pos, List.mem_range.mpr hlt, ?_⟩
    rw [Bool.and_eq_true, decide_eq_true_eq]
    exact ⟨hi, (iTokenAt_iff s pos).mpr hcond⟩

/-- A position returned by `find_last_of` respects its bound. -/
theorem findLastSign_le (s : List Char) (bound : ℕ) (j : ℕ)
    (h : findLastSign s bound = some j) : j ≤ bound := by
  unfold findLastSign at h
  suffices H : ∀ (L : List ℕ) (acc : Option ℕ),
      (∀ k, acc = some k → k ≤ bound) →
      L.foldl (fun acc j =>
        if j ≤ bound ∧ (s.getD j ' ' = '+' ∨ s.getD j ' ' = '-') then some j
        else acc) acc = some j →
      j ≤ bound by
    exact H _ none (fun k hk => Option.noConfusion hk) h
  intro L
  induction L with
  | nil => exact fun acc hacc h => hacc _ h
  | cons x L ih =>
    intro acc hacc h
    refine ih _ ?_ h
    intro k hk
    dsimp only at hk
    by_cases hx : x ≤ bound ∧ (s.getD x ' ' = '+' ∨ s.getD x ' ' = '-')
    · rw [if_pos hx] at hk
      injection hk with h2
      subst h2
      exact hx.1
    · rw [if_neg hx] at hk
      exact hacc _ hk

/-- Counterexample to claim C9: in `"i+2"` the located `'i'` is at index 0,
`i_pos - 1` underflows in `size_t`, the sign search therefore covers the
whole string and finds the `'+'` written after the `'i'`, and `std::stod`
then throws on the real part `"i"` — whereas the claim's rule ("split at the
last sign before the located i", so no split here) yields 0+1i. -/
theorem c9_counterexample :
    ParseComplex "i+2".toList = none ∧
    specParseComplex "i+2".toList = some (0, 1) :=
  ⟨rfl, rfl⟩

/-- Claim C9, amended: whenever the located `'i'` is not the first character,
`ParseComplex` follows the claim's rule exactly: split at the last `'+'`/`'-'`
strictly before the `'i'`, the portion before the sign (0 when missing) is the
real part, and the signed portion before `'i'` is the imaginary coefficient
with the empty/`'+'`/`'-'` conventions — so `"i"` parses to 0+1i, `"-i"` to
0−1i and `"3+2i"` to 3+2i. (When `'i'` is first, `i_pos - 1` underflows in
`size_t` and the sign search wraps over the whole string; see the
counterexample.) -/
theorem c9_parse_complex_amended :
    (∀ (s : List Char) (ipos : ℕ),
      List.findIdx? (fun c => c = 'i') s = some ipos → ipos ≠ 0 →
      ParseComplex s = specParseComplex s) ∧
    ParseComplex "i".toList = some (0, 1) ∧
    ParseComplex "-i".toList = some (0, -1) ∧
    ParseComplex "3+2i".toList = some (3, 2) := by
  refine ⟨?_, rfl, rfl, rfl⟩
  intro s ipos h1 h2
  unfold ParseComplex specParseComplex
  rw [h1]
  dsimp only
  rw [if_neg h2]
  cases hfl : findLastSign s (ipos - 1) with
  | none => rfl
  | some sp =>
    have hle := findLastSign_le s (ipos - 1) sp hfl
    dsimp only
    rw [if_pos (by omega : sp ≤ ipos)]

/-- Witness for C9 (amended) at `"3+2i"` (the `'i'` is at index 3 ≠ 0). -/
theorem c9_parse_complex_amended_witness :
    ParseComplex "3+2i".toList = specParseComplex "3+2i".toList :=
  c9_parse_complex_amended.1 "3+2i".toList 3 rfl (by decide)

/-- Constant-node test (`getType() == NodeType::Constant`). -/
def isConstN {α : Type} : Node α → Bool
  | .const _ => true
  | _ => false

/-- Decides the shapes on which no `simplifyDivide` call made by `diff` can
reach its throwing constant-fold branch, whatever the numeric values: no `Ln`
node whose argument is the zero constant, and no `Divide` node whose right
child is a constant. (With a non-constant divisor the quotient-rule
denominator `simplifyPower(r, Constant 2)` is never a constant node, so its
division cannot constant-fold at all; a constant divisor, by contrast, makes
the throw value-dependent — `std::pow(c, 2)` folds to an exact zero not only
for `c = 0` but also, in `long double`, for tiny nonzero `c` through
underflow — so constant divisors are excluded from the guarantee instead of
being modelled numerically.) -/
def diffSafe {α : Type} [DecidableEq α] (d : NumDomain α) : Node α → Bool
  | .const _ => true
  | .var _ => true
  | .binop .div l r => diffSafe d l && diffSafe d r && !(isConstN r)
  | .binop _ l r => diffSafe d l && diffSafe d r
  | .fn .ln (.const c) => decide (¬(c = d.zero))
  | .fn _ a => diffSafe d a

theorem ok_bind {ε α β : Type} (a : α) (f : α → Except ε β) :
    (Except.ok a >>= f : Except ε β) = f a := rfl

theorem diffN_const {α : Type} [DecidableEq α] (d : NumDomain α) (c : α)
    (v : List Char) : diffN d (.const c) v = .ok (.const d.zero) := rfl

theorem isConstN_ne {α : Type} {r : Node α} (h : isConstN r = false) :
    ∀ c, r ≠ .const c := by
  intro c hc
  subst hc
  exact Bool.noConfusion h

/-- `simplifyDivide` succeeds unless both operands are constants, the divisor
equals the domain zero (and not the domain one, which the first branch
returns early), and the numerator is nonzero — the hypothesis rules that
combination out. -/
theorem simplifyDivide_ok {α : Type} [DecidableEq α] (d : NumDomain α)
    (l r : Node α)
    (h : ∀ a b, l = .const a → r = .const b → b = d.zero → b ≠ d.one →
      a = d.zero) :
    ∃ res, simplifyDivide d l r = .ok res := by
  unfold simplifyDivide
  by_cases h1 : isOne d r = true
  · rw [if_pos h1]
    exact ⟨l, rfl⟩
  · rw [if_neg h1]
    by_cases h2 : isZero d l = true
    · rw [if_pos h2]
      exact ⟨_, rfl⟩
    · rw [if_neg h2]
      cases l with
      | const a =>
        cases r with
        | const b =>
          by_cases h3 : b = d.zero
          · exfalso
            apply h2
            have hbone : ¬(b = d.one) := by
              intro hb
              apply h1
              show decide (b = d.one) = true
              rw [decide_eq_true_eq]
              exact hb
            show decide (a = d.zero) = true
            rw [decide_eq_true_eq]
            exact h a b rfl rfl h3 hbone
          · exact ⟨_, by
              show (if b = d.zero
                  then (Except.error EErr.divByZero : Except EErr (Node α))
                  else Except.ok (.const (d.div a b))) = _
              rw [if_neg h3]⟩
        | var n => exact ⟨_, rfl⟩
        | binop op l2 r2 => exact ⟨_, rfl⟩
        | fn tg a2 => exact ⟨_, rfl⟩
      | var n => exact ⟨_, rfl⟩
      | binop op l2 r2 => exact ⟨_, rfl⟩
      | fn tg a2 => exact ⟨_, rfl⟩

/-- If the base is not a constant node, `simplifyPower(base, Constant 2)` can
only be a constant node through the exponent-is-zero early return, whose
value is the domain one — in particular the quotient-rule denominator never
constant-folds the base's values. -/
theorem simplifyPower_two_shape {α : Type} [DecidableEq α] (d : NumDomain α)
    (r : Node α) (b : α) (hr : ∀ c, r ≠ .const c)
    (h : simplifyPower d r (.const d.two) = .const b) : b = d.one := by
  unfold simplifyPower at h
  by_cases h1 : isOne d (.const d.two) = true
  · rw [if_pos h1] at h
    exact absurd h (hr b)
  · rw [if_neg h1] at h
    by_cases h2 : isZero d (.const d.two) = true
    · rw [if_pos h2] at h
      injection h with h3
      exact h3.symm
    · rw [if_neg h2] at h
      cases r with
      | const c => exact absurd rfl (hr c)
      | var n => exact Node.noConfusion h
      | binop op l2 r2 => exact Node.noConfusion h
      | fn tg a2 => exact Node.noConfusion h

theorem diffSafe_binop_parts {α : Type} [DecidableEq α] (d : NumDomain α)
    {op : BOp} {l r : Node α} (h : diffSafe d (.binop op l r) = true) :
    diffSafe d l = true ∧ diffSafe d r = true := by
  cases op with
  | div =>
    have h2 : (diffSafe d l && diffSafe d r && !(isConstN r)) = true := h
    simp only [Bool.and_eq_true] at h2
    exact ⟨h2.1.1, h2.1.2⟩
  | add =>
    have h2 : (diffSafe d l && diffSafe d r) = true := h
    rw [Bool.and_eq_true] at h2
    exact h2
  | sub =>
    have h2 : (diffSafe d l && diffSafe d r) = true := h
    rw [Bool.and_eq_true] at h2
    exact h2
  | mul =>
    have h2 : (diffSafe d l && diffSafe d r) = true := h
    rw [Bool.and_eq_true] at h2
    exact h2
  | pow =>
    have h2 : (diffSafe d l && diffSafe d r) = true := h
    rw [Bool.and_eq_true] at h2
    exact h2

theorem diffSafe_div_nonconst {α : Type} [DecidableEq α] (d : NumDomain α)
    {l r : Node α} (h : diffSafe d (.binop .div l r) = true) :
    isConstN r = false := by
  have h2 : (diffSafe d l && diffSafe d r && !(isConstN r)) = true := h
  simp only [Bool.and_eq_true, Bool.not_eq_true'] at h2
  exact h2.2

/-- Claim C1, amended: in every numeric domain, `diff` succeeds for every
variable name on every well-formed expression that contains no `Ln` node
with the zero constant as argument and no `Divide` node with a constant
right child. Outside that set it can fail through `simplifyDivide`'s
constant folding: on `Ln` of the zero constant (like the parse result of
`"ln(0)"`, see the counterexample), and on constant divisors whose square
constant-folds to zero (exact zeros; in `long double` also tiny nonzero
divisors via `std::pow` underflow, which is why constant divisors are
excluded rather than numerically modelled). -/
theorem c1_diff_amended {α : Type} [DecidableEq α] (d : NumDomain α)
    (e : Node α) (v : List Char) (h : diffSafe d e = true) :
    ∃ res, diffN d e v = .ok res := by
  induction e with
  | const c => exact ⟨_, rfl⟩
  | var n => exact ⟨_, rfl⟩
  | binop op l r ihl ihr =>
    obtain ⟨hl, hr⟩ := diffSafe_binop_parts d h
    obtain ⟨dl, hdl⟩ := ihl hl
    obtain ⟨dr, hdr⟩ := ihr hr
    simp only [diffN]
    rw [hdl, hdr]
    simp only [ok_bind]
    cases op with
    | add => exact ⟨_, rfl⟩
    | sub => exact ⟨_, rfl⟩
    | mul => exact ⟨_, rfl⟩
    | div =>
      refine simplifyDivide_ok d _ _ ?_
      intro a b hnum hden hbz hbone
      exact absurd
        (simplifyPower_two_shape d r b
          (isConstN_ne (diffSafe_div_nonconst d h)) hden)
        hbone
    | pow =>
      have hq : ∃ q, simplifyDivide d dl l = .ok q := by
        refine simplifyDivide_ok d _ _ ?_
        intro a b h1 h2 hbz hbone
        subst h2
        have h3 := (diffN_const d b v).symm.trans hdl
        injection h3 with h3
        rw [← h3] at h1
        injection h1 with h1
        exact h1.symm
      obtain ⟨q, hq⟩ := hq
      rw [hq]
      simp only [ok_bind]
      exact ⟨_, rfl⟩
  | fn tg a iha =>
    cases tg with
    | sin =>
      have ha : diffSafe d a = true := h
      obtain ⟨da, hda⟩ := iha ha
      simp only [diffN]
      rw [hda]
      exact ⟨_, rfl⟩
    | cos =>
      have ha : diffSafe d a = true := h
      obtain ⟨da, hda⟩ := iha ha
      simp only [diffN]
      rw [hda]
      exact ⟨_, rfl⟩
    | exp =>
      have ha : diffSafe d a = true := h
      obtain ⟨da, hda⟩ := iha ha
      simp only [diffN]
      rw [hda]
      exact ⟨_, rfl⟩
    | ln =>
      have hq : ∃ q, simplifyDivide d (.const d.one) a = .ok q := by
        refine simplifyDivide_ok d _ _ ?_
        intro a2 b2 h1 h2 hbz hbone
        cases a with
        | const c =>
          injection h2 with h2
          have hc : decide (¬(c = d.zero)) = true := h
          rw [decide_eq_true_eq] at hc
          exact absurd (by rw [h2]; exact hbz) hc
        | var n => exact Node.noConfusion h2
        | binop op l2 r2 => exact Node.noConfusion h2
        | fn tg2 a3 => exact Node.noConfusion h2
      obtain ⟨q, hq⟩ := hq
      have hda : ∃ da, diffN d a v = .ok da := by
        cases a with
        | const c => exact ⟨_, rfl⟩
        | var n => exact ⟨_, rfl⟩
        | binop op l2 r2 => exact iha h
        | fn tg2 a3 => exact iha h
      obtain ⟨da, hda⟩ := hda
      simp only [diffN]
      rw [hda]
      simp only [ok_bind]
      rw [hq]
      simp only [ok_bind]
      exact ⟨_, rfl⟩

/-- Witness for C1 (amended) in the real domain: `ln(2) / x` contains no
`Ln` of a zero constant and no constant divisor, and its derivative
computation succeeds. -/
theorem c1_diff_amended_witness :
    ∃ res, diffN (RealDom trZ)
      (.binop .div (.fn .ln (.const 2)) (.var ['x'])) "x".toList = .ok res :=
  c1_diff_amended (RealDom trZ)
    (.binop .div (.fn .ln (.const 2)) (.var ['x'])) "x".toList (by decide)

theorem isDigitC_digitC (n : ℕ) : isDigitC (digitC n) = true := by
  unfold digitC
  split <;> rfl

theorem digitVal_digitC (n : ℕ) (h : n < 10) : digitVal (digitC n) = n := by
  unfold digitC
  split <;> first | rfl | (simp_all [digitVal]; omega)

theorem natCharsAux_eq (fuel : ℕ) :
    ∀ n, n ≤ fuel → natCharsAux fuel n = (Nat.digits 10 n).map digitC := by
  induction fuel with
  | zero =>
    intro n hn
    have : n = 0 := by omega
    subst this
    rw [Nat.digits_zero]
    rfl
  | succ fuel ih =>
    intro n hn
    cases n with
    | zero => rw [Nat.digits_zero]; rfl
    | succ m =>
      have hstep : natCharsAux (fuel + 1) (m + 1) =
          digitC ((m + 1) % 10) :: natCharsAux fuel ((m + 1) / 10) := rfl
      rw [hstep, Nat.digits_def' (by norm_num : (1 : ℕ) < 10) (Nat.succ_pos m),
        List.map_cons]
      congr 1
      have hdiv : (m + 1) / 10 < m + 1 := Nat.div_lt_self (Nat.succ_pos m) (by norm_num)
      exact ih _ (by omega)

theorem digitsToNat_append (A : List Char) (c : Char) :
    digitsToNat (A ++ [c]) = 10 * digitsToNat A + digitVal c := by
  unfold digitsToNat
  rw [List.foldl_append]
  rfl

theorem digitsToNat_rev_map (L : List ℕ) (h : ∀ x ∈ L, x < 10) :
    digitsToNat ((L.map digitC).reverse) = Nat.ofDigits 10 L := by
  induction L with
  | nil => rfl
  | cons x T ih =>
    rw [List.map_cons, List.reverse_cons, digitsToNat_append,
      ih (fun y hy => h y (List.mem_cons_of_mem _ hy)),
      digitVal_digitC x (h x (List.mem_cons_self _ _)), Nat.ofDigits_cons]
    ring

theorem natChars_eq (n : ℕ) (hn : n ≠ 0) :
    natChars n = ((Nat.digits 10 n).map digitC).reverse := by
  unfold natChars
  rw [if_neg hn, natCharsAux_eq n n le_rfl]

theorem digitsToNat_natChars (n : ℕ) : digitsToNat (natChars n) = n := by
  by_cases hn : n = 0
  · subst hn; rfl
  · rw [natChars_eq n hn,
      digitsToNat_rev_map _ (fun x hx => Nat.digits_lt_base (by norm_num) hx),
      Nat.ofDigits_digits]

theorem natChars_all_digits (n : ℕ) : ∀ c ∈ natChars n, isDigitC c = true := by
  by_cases hn : n = 0
  · subst hn
    intro c hc
    have : c = '0' := by simpa [natChars] using hc
    subst this
    rfl
  · rw [natChars_eq n hn]
    intro c hc
    rw [List.mem_reverse] at hc
    obtain ⟨x, hx, rfl⟩ := List.mem_map.mp hc
    exact isDigitC_digitC x

theorem natChars_ne_nil (n : ℕ) : natChars n ≠ [] := by
  by_cases hn : n = 0
  · subst hn; simp [natChars]
  · rw [natChars_eq n hn]
    simp [Nat.digits_ne_nil_iff_ne_zero, hn]

theorem digitsToNat_replicate_zero (k : ℕ) (ds : List Char) :
    digitsToNat (List.replicate k '0' ++ ds) = digitsToNat ds := by
  induction k with
  | zero => rfl
  | succ k ih =>
    rw [List.replicate_succ, List.cons_append]
    exact ih

theorem padLeft6_dtn (ds : List Char) :
    digitsToNat (padLeft6 ds) = digitsToNat ds :=
  digitsToNat_replicate_zero _ ds

theorem padLeft6_len (ds : List Char) (h : ds.length ≤ 6) :
    (padLeft6 ds).length = 6 := by
  unfold padLeft6
  rw [List.length_append, List.length_replicate]
  omega

theorem padLeft6_all_digits (ds : List Char) (h : ∀ c ∈ ds, isDigitC c = true) :
    ∀ c ∈ padLeft6 ds, isDigitC c = true := by
  intro c hc
  rw [padLeft6, List.mem_append] at hc
  rcases hc with hc | hc
  · rw [List.mem_replicate] at hc
    rw [hc.2]
    rfl
  · exact h c hc

theorem natChars_len_le6 (m : ℕ) (h : m < 1000000) : (natChars m).length ≤ 6 := by
  by_cases hm : m = 0
  · subst hm; simp [natChars]
  · rw [natChars_eq m hm, List.length_reverse, List.length_map,
      Nat.digits_len 10 m (by norm_num) hm]
    have h2 : Nat.log 10 m < 6 :=
      (Nat.lt_pow_iff_log_lt (by norm_num) hm).mp (by norm_num; omega)
    omega

/-- The head of `rest` (if any) fails `p` — the condition under which inline
lexing of a token stops exactly at the token boundary. -/
def headNot (p : Char → Bool) : List Char → Prop
  | [] => True
  | c :: _ => p c = false

theorem takeWhile_all_append (p : Char → Bool) (tok rest : List Char)
    (h : ∀ c ∈ tok, p c = true) (hb : headNot p rest) :
    List.takeWhile p (tok ++ rest) = tok := by
  induction tok with
  | nil =>
    rw [List.nil_append]
    cases rest with
    | nil => rfl
    | cons c r =>
      have hb2 : p c = false := hb
      rw [List.takeWhile_cons, hb2]
      rfl
  | cons c tokT ih =>
    rw [List.cons_append, List.takeWhile_cons, h c (List.mem_cons_self _ _)]
    rw [ih (fun x hx => h x (List.mem_cons_of_mem _ hx))]
    rfl

theorem dropWhile_all_append (p : Char → Bool) (tok rest : List Char)
    (h : ∀ c ∈ tok, p c = true) (hb : headNot p rest) :
    List.dropWhile p (tok ++ rest) = rest := by
  induction tok with
  | nil =>
    rw [List.nil_append]
    cases rest with
    | nil => rfl
    | cons c r =>
      have hb2 : p c = false := hb
      rw [List.dropWhile_cons, hb2]
      rfl
  | cons c tokT ih =>
    rw [List.cons_append, List.dropWhile_cons, h c (List.mem_cons_self _ _)]
    show List.dropWhile p (tokT ++ rest) = rest
    exact ih (fun x hx => h x (List.mem_cons_of_mem _ hx))

theorem takeWhile_all (p : Char → Bool) (l : List Char)
    (h : ∀ c ∈ l, p c = true) : List.takeWhile p l = l := by
  have h2 := takeWhile_all_append p l [] h trivial
  rwa [List.append_nil] at h2

theorem dropWhile_head_false (p : Char → Bool) (c : Char) (l : List Char)
    (h : p c = false) : List.dropWhile p (c :: l) = c :: l := by
  rw [List.dropWhile_cons, h]
  rfl

theorem digit_not_space (c : Char) (h : isDigitC c = true) :
    isSpaceC c = false := by
  simp only [isDigitC, decide_eq_true_eq] at h
  simp only [isSpaceC, decide_eq_false_iff_not]
  omega

theorem digit_ne_plus (c : Char) (h : isDigitC c = true) : ¬(c = '+') := by
  intro h2
  subst h2
  exact absurd h (by decide)

theorem digit_ne_minus (c : Char) (h : isDigitC c = true) : ¬(c = '-') := by
  intro h2
  subst h2
  exact absurd h (by decide)

theorem stodSign_digit (c : Char) (r : List Char) (h : isDigitC c = true) :
    stodSign (c :: r) = (1, c :: r) := by
  show (if c = '+' then ((1 : ℚ), r)
    else if c = '-' then (-1, r) else (1, c :: r)) = (1, c :: r)
  rw [if_neg (digit_ne_plus c h), if_neg (digit_ne_minus c h)]

/-- `stodBody` on a `digits.digits` string. -/
theorem stodBody_digits_dot (I P : List Char) (hI : I ≠ [])
    (hdI : ∀ c ∈ I, isDigitC c = true) (hdP : ∀ c ∈ P, isDigitC c = true) :
    stodBody 1 (I ++ '.' :: P) =
      some (qmul 1 (qadd (digitsToNat I : ℚ)
        (qdiv (digitsToNat P : ℚ) (qpow 10 P.length)))) := by
  simp only [stodBody]
  rw [takeWhile_all_append isDigitC I ('.' :: P) hdI (by exact rfl),
    dropWhile_all_append isDigitC I ('.' :: P) hdI (by exact rfl)]
  dsimp only
  rw [if_pos rfl, takeWhile_all isDigitC P hdP,
    if_neg (fun hand => hI hand.1)]

/-- `std::stod` on a `digits.digits` string: sign 1, integer part, fractional
part over `10 ^ length`. -/
theorem stodQ_digits_dot (I P : List Char) (hI : I ≠ [])
    (hdI : ∀ c ∈ I, isDigitC c = true) (hdP : ∀ c ∈ P, isDigitC c = true) :
    stodQ (I ++ '.' :: P) =
      some (qmul 1 (qadd (digitsToNat I : ℚ)
        (qdiv (digitsToNat P : ℚ) (qpow 10 P.length)))) := by
  obtain ⟨c, I2, rfl⟩ := List.exists_cons_of_ne_nil hI
  have hc : isDigitC c = true := hdI c (List.mem_cons_self _ _)
  unfold stodQ
  rw [List.cons_append,
    dropWhile_head_false isSpaceC c _ (digit_not_space c hc),
    stodSign_digit c _ hc]
  rw [← List.cons_append]
  exact stodBody_digits_dot (c :: I2) P hI hdI hdP

theorem ratFloor_eq_floor (q : ℚ) : Rat.floor q = ⌊q⌋ := by
  rw [Rat.floor_def', Rat.floor_def]

theorem fmtCore_eq (n : ℕ) :
    fmtCore ((n : ℚ) / 1000000) =
      natChars (n / 1000000) ++ '.' :: padLeft6 (natChars (n % 1000000)) := by
  have hm : (Rat.floor (qadd (qmul ((n : ℚ) / 1000000) 1000000)
      (mkRat 1 2))).toNat = n := by
    rw [qmul_eq, qadd_eq, div_mul_cancel₀ _ (by norm_num : (1000000 : ℚ) ≠ 0),
      ratFloor_eq_floor]
    have h2 : (mkRat 1 2 : ℚ) = 1 / 2 := by
      rw [Rat.mkRat_eq_divInt, Rat.divInt_eq_div]
      norm_num
    rw [h2]
    have h3 : ⌊(n : ℚ) + 1 / 2⌋ = (n : ℤ) := by
      rw [Int.floor_eq_iff]
      constructor
      · push_cast
        linarith
      · push_cast
        linarith
    rw [h3]
    exact Int.toNat_natCast n
  simp only [fmtCore]
  rw [hm]

/-- `stodQ` inverts the fixed-six-decimal formatting of `n / 10⁶`. -/
theorem stodQ_fmt (n : ℕ) :
    stodQ (fmtCore ((n : ℚ) / 1000000)) = some ((n : ℚ) / 1000000) := by
  rw [fmtCore_eq,
    stodQ_digits_dot _ _ (natChars_ne_nil _) (natChars_all_digits _)
      (padLeft6_all_digits _ (natChars_all_digits _))]
  refine congrArg some ?_
  rw [padLeft6_dtn, digitsToNat_natChars, digitsToNat_natChars,
    padLeft6_len _ (natChars_len_le6 _ (Nat.mod_lt _ (by norm_num)))]
  rw [qmul_eq, qadd_eq, qdiv_eq, qpow_eq, one_mul]
  have h10 : ((10 : ℚ) ^ 6) = 1000000 := by norm_num
  rw [h10]
  have hsplit := Nat.div_add_mod n 1000000
  rw [eq_div_iff (by norm_num : (1000000 : ℚ) ≠ 0), add_mul,
    div_mul_cancel₀ _ (by norm_num : (1000000 : ℚ) ≠ 0)]
  conv_rhs => rw [← hsplit]
  push_cast
  ring

theorem bool_ne_true {b : Bool} (h : b = false) : ¬(b = true) := by
  rw [h]
  exact Bool.false_ne_true

theorem dropWhile_length_le (p : Char → Bool) (l : List Char) :
    (List.dropWhile p l).length ≤ l.length := by
  induction l with
  | nil => exact le_rfl
  | cons c r ih =>
    rw [List.dropWhile_cons]
    by_cases h : p c = true
    · rw [if_pos h]
      exact le_trans ih (by simp)
    · rw [if_neg h]

theorem alpha_not_space (c : Char) (h : isAlphaC c = true) :
    isSpaceC c = false := by
  simp only [isAlphaC, decide_eq_true_eq] at h
  simp only [isSpaceC, decide_eq_false_iff_not]
  omega

theorem alpha_not_num (c : Char) (h : isAlphaC c = true) : numC c = false := by
  have hd : isDigitC c = false := by
    simp only [isAlphaC, decide_eq_true_eq] at h
    simp only [isDigitC, decide_eq_false_iff_not]
    omega
  have hdot : (c = '.') = False := by
    simp only [eq_iff_iff, iff_false]
    intro h2
    subst h2
    exact absurd h (by decide)
  simp [numC, hd, hdot]

theorem numC_not_space (c : Char) (h : numC c = true) : isSpaceC c = false := by
  rw [numC, Bool.or_eq_true] at h
  rcases h with h | h
  · exact digit_not_space c h
  · rw [decide_eq_true_eq] at h
    subst h
    rfl

/-- `scan` ignores the exact fuel value as long as it bounds the input
length (each step consumes at least one character), so the `outOfFuel`
outcome is unreachable from `parseExpression`. -/
theorem scan_fuel_irrelevant {α : Type} [DecidableEq α] (d : NumDomain α) :
    ∀ (f1 f2 : ℕ) (input : List Char) (st : St α),
      input.length ≤ f1 → input.length ≤ f2 →
      scan d f1 input st = scan d f2 input st := by
  intro f1
  induction f1 with
  | zero =>
    intro f2 input st h1 _
    have h0 : input = [] := List.length_eq_zero.mp (Nat.le_zero.mp h1)
    subst h0
    cases f2 <;> rfl
  | succ f1 ih =>
    intro f2 input st h1 h2
    cases input with
    | nil => cases f2 <;> rfl
    | cons c rest =>
      have hr1 : rest.length ≤ f1 := by simp at h1; omega
      obtain ⟨f2', rfl⟩ : ∃ f2', f2 = f2' + 1 := ⟨f2 - 1, by simp at h2; omega⟩
      have hr2 : rest.length ≤ f2' := by simp at h2; omega
      simp only [scan]
      by_cases hsp : isSpaceC c = true
      · rw [if_pos hsp, if_pos hsp]
        exact ih f2' rest st hr1 hr2
      · rw [if_neg hsp, if_neg hsp]
        by_cases hnm : numC c = true
        · rw [if_pos hnm, if_pos hnm]
          cases hstv : stodQ (c :: List.takeWhile numC rest) with
          | none => rfl
          | some q =>
            have hlen := dropWhile_length_le numC rest
            exact ih f2' _ _ (by omega) (by omega)
        · rw [if_neg hnm, if_neg hnm]
          by_cases hal : isAlphaC c = true
          · rw [if_pos hal, if_pos hal]
            have hlen := dropWhile_length_le isAlphaC rest
            by_cases hfn : isFunction (c :: List.takeWhile isAlphaC rest) = true
            · rw [if_pos hfn, if_pos hfn]
              exact ih f2' _ _ (by omega) (by omega)
            · rw [if_neg hfn, if_neg hfn]
              exact ih f2' _ _ (by omega) (by omega)
          · rw [if_neg hal, if_neg hal]
            by_cases hlp : c = '('
            · rw [if_pos hlp, if_pos hlp]
              exact ih f2' rest _ hr1 hr2
            · rw [if_neg hlp, if_neg hlp]
              by_cases hrp : c = ')'
              · rw [if_pos hrp, if_pos hrp]
                cases hpu : popUntilParen st.vs st.ops with
                | error e => rfl
                | ok pr =>
                  obtain ⟨vs1, ops1⟩ := pr
                  cases hfns : st.fns with
                  | nil =>
                    dsimp only
                    exact ih f2' rest _ hr1 hr2
                  | cons fh ft =>
                    dsimp only
                    cases haf : applyFn1 fh vs1 with
                    | error e => rfl
                    | ok vs2 => exact ih f2' rest _ hr1 hr2
              · rw [if_neg hrp, if_neg hrp]
                by_cases hop : isOperator c = true
                · rw [if_pos hop, if_pos hop]
                  cases hpw : popWhileGE c st.vs st.ops with
                  | error e => rfl
                  | ok pr =>
                    obtain ⟨vs1, ops1⟩ := pr
                    dsimp only
                    exact ih f2' rest _ hr1 hr2
                · rw [if_neg hop, if_neg hop]

theorem opChar_not_space (op : BOp) : isSpaceC (opChar op) = false := by
  cases op <;> rfl

theorem opChar_not_num (op : BOp) : numC (opChar op) = false := by
  cases op <;> rfl

theorem opChar_not_alpha (op : BOp) : isAlphaC (opChar op) = false := by
  cases op <;> rfl

theorem scan_lparen {α : Type} [DecidableEq α] (d : NumDomain α)
    (f : ℕ) (rest : List Char) (st : St α) :
    scan d (f + 1) ('(' :: rest) st =
      scan d f rest ⟨st.vs, '(' :: st.ops, st.fns⟩ := rfl

/-- Scanning a binary operator with `'('` on top of the operator stack: the
pop loop stops at once and the operator is pushed. -/
theorem scan_op {α : Type} [DecidableEq α] (d : NumDomain α) (op : BOp)
    (f : ℕ) (rest : List Char) (vs : List (Node α)) (ops : List Char)
    (fns : List (List Char)) :
    scan d (f + 1) (opChar op :: rest) ⟨vs, '(' :: ops, fns⟩ =
      scan d f rest ⟨vs, opChar op :: '(' :: ops, fns⟩ := by
  cases op <;> rfl

/-- Scanning `')'` when the operator stack holds exactly one pending binary
operator above the matching `'('` and no function name is pending: the
operator is applied to the two top values and the group closes. -/
theorem scan_rparen_binop {α : Type} [DecidableEq α] (d : NumDomain α)
    (op : BOp) (f : ℕ) (rest : List Char) (l r : Node α)
    (vs : List (Node α)) (ops : List Char) :
    scan d (f + 1) (')' :: rest) ⟨r :: l :: vs, opChar op :: '(' :: ops, []⟩ =
      scan d f rest ⟨.binop op l r :: vs, ops, []⟩ := by
  cases op <;> rfl

/-- Scanning a numeric literal: the digit/dot run is lexed as one token,
converted by `stodQ`, and pushed as a constant. -/
theorem scan_num {α : Type} [DecidableEq α] (d : NumDomain α)
    (c : Char) (tokT rest : List Char) (vs : List (Node α)) (ops : List Char)
    (fns : List (List Char)) (f : ℕ) (q : ℚ)
    (hall : ∀ x ∈ c :: tokT, numC x = true)
    (hb : headNot numC rest)
    (hst : stodQ (c :: tokT) = some q) :
    scan d (f + 1) (c :: (tokT ++ rest)) ⟨vs, ops, fns⟩ =
      scan d f rest ⟨.const (d.ofReal q) :: vs, ops, fns⟩ := by
  have hc : numC c = true := hall c (List.mem_cons_self _ _)
  have htokT : ∀ x ∈ tokT, numC x = true :=
    fun x hx => hall x (List.mem_cons_of_mem _ hx)
  simp only [scan]
  rw [if_neg (bool_ne_true (numC_not_space c hc)), if_pos hc]
  rw [takeWhile_all_append numC tokT rest htokT hb, hst]
  rw [dropWhile_all_append numC tokT rest htokT hb]

/-- Scanning an identifier that is not a function name: the letter run is
lexed as one token and pushed as a variable. -/
theorem scan_var {α : Type} [DecidableEq α] (d : NumDomain α)
    (c : Char) (tokT rest : List Char) (vs : List (Node α)) (ops : List Char)
    (fns : List (List Char)) (f : ℕ)
    (hall : ∀ x ∈ c :: tokT, isAlphaC x = true)
    (hb : headNot isAlphaC rest)
    (hnf : ¬((c :: tokT) ∈ funcNames)) :
    scan d (f + 1) (c :: (tokT ++ rest)) ⟨vs, ops, fns⟩ =
      scan d f rest ⟨.var (c :: tokT) :: vs, ops, fns⟩ := by
  have hc : isAlphaC c = true := hall c (List.mem_cons_self _ _)
  have htokT : ∀ x ∈ tokT, isAlphaC x = true :=
    fun x hx => hall x (List.mem_cons_of_mem _ hx)
  simp only [scan]
  rw [if_neg (bool_ne_true (alpha_not_space c hc)),
    if_neg (bool_ne_true (alpha_not_num c hc)), if_pos hc]
  rw [takeWhile_all_append isAlphaC tokT rest htokT hb]
  rw [if_neg (by simpa [isFunction] using hnf)]
  rw [dropWhile_all_append isAlphaC tokT rest htokT hb]

/-- Well-formedness for the amended round-trip claim: function-free ASTs
whose constants have the exactly-formattable shape `n / 10⁶` (`n : ℕ`) and
whose variable names are non-empty letter runs outside the function-name
set — the shapes whose stringification reparses to the identical AST. -/
inductive GoodR : Node ℚ → Prop
  | const (n : ℕ) : GoodR (.const ((n : ℚ) / 1000000))
  | var (name : List Char) : name ≠ [] →
      (∀ c ∈ name, isAlphaC c = true) → ¬(name ∈ funcNames) →
      GoodR (.var name)
  | binop (op : BOp) {l r : Node ℚ} : GoodR l → GoodR r →
      GoodR (.binop op l r)

/-- The continuation after a token neither extends a number nor an
identifier, so inline lexing stops at the right place. -/
def tokenBoundary : List Char → Prop
  | [] => True
  | c :: _ => numC c = false ∧ isAlphaC c = false

theorem tb_num {rest : List Char} (h : tokenBoundary rest) :
    headNot numC rest := by
  cases rest with
  | nil => trivial
  | cons c r => exact h.1

theorem tb_alpha {rest : List Char} (h : tokenBoundary rest) :
    headNot isAlphaC rest := by
  cases rest with
  | nil => trivial
  | cons c r => exact h.2

theorem fmtCore_all_num (n : ℕ) :
    ∀ c ∈ fmtCore ((n : ℚ) / 1000000), numC c = true := by
  rw [fmtCore_eq]
  intro c hc
  rw [List.mem_append] at hc
  rcases hc with hc | hc
  · have h2 := natChars_all_digits _ c hc
    simp [numC, h2]
  · rw [List.mem_cons] at hc
    rcases hc with rfl | hc
    · rfl
    · have h2 := padLeft6_all_digits _ (natChars_all_digits _) c hc
      simp [numC, h2]

theorem fmtCore_ne_nil (n : ℕ) : fmtCore ((n : ℚ) / 1000000) ≠ [] := by
  rw [fmtCore_eq]
  simp [List.append_eq_nil]

theorem fmtFixed6_of_natdiv (n : ℕ) :
    fmtFixed6 ((n : ℚ) / 1000000) = fmtCore ((n : ℚ) / 1000000) := by
  rw [fmtFixed6, if_neg (not_lt.mpr (by positivity))]

/-- Processing the stringification of a well-formed function-free expression
from any state with an empty function stack pushes exactly that expression
back onto the value stack. -/
theorem scan_toString (t : Transc ℚ) (e : Node ℚ) (hg : GoodR e) :
    ∀ (rest : List Char) (vs : List (Node ℚ)) (ops : List Char) (f : ℕ),
      (toStringN (RealDom t) e ++ rest).length ≤ f →
      tokenBoundary rest →
      scan (RealDom t) f (toStringN (RealDom t) e ++ rest) ⟨vs, ops, []⟩ =
        scan (RealDom t) rest.length rest ⟨e :: vs, ops, []⟩ := by
  induction hg with
  | const n =>
    intro rest vs ops f hf hb
    have hfmt : toStringN (RealDom t) (.const ((n : ℚ) / 1000000)) =
        fmtCore ((n : ℚ) / 1000000) := fmtFixed6_of_natdiv n
    rw [hfmt] at hf ⊢
    obtain ⟨c, tokT, hct⟩ := List.exists_cons_of_ne_nil (fmtCore_ne_nil n)
    rw [hct] at hf ⊢
    obtain ⟨f1, rfl⟩ : ∃ f1, f = f1 + 1 :=
      ⟨f - 1, by simp only [List.cons_append, List.length_cons] at hf; omega⟩
    rw [List.cons_append,
      scan_num (RealDom t) c tokT rest vs ops [] f1 ((n : ℚ) / 1000000)
        (hct ▸ fmtCore_all_num n) (tb_num hb) (hct ▸ stodQ_fmt n)]
    exact scan_fuel_irrelevant (RealDom t) f1 rest.length rest _
      (by simp only [List.cons_append, List.length_cons, List.length_append] at hf; omega)
      le_rfl
  | var name hne hal hnf =>
    intro rest vs ops f hf hb
    obtain ⟨c, tokT, rfl⟩ := List.exists_cons_of_ne_nil hne
    have hfmt : toStringN (RealDom t) (.var (c :: tokT)) = c :: tokT := rfl
    rw [hfmt] at hf ⊢
    obtain ⟨f1, rfl⟩ : ∃ f1, f = f1 + 1 :=
      ⟨f - 1, by simp only [List.cons_append, List.length_cons] at hf; omega⟩
    rw [List.cons_append,
      scan_var (RealDom t) c tokT rest vs ops [] f1 hal (tb_alpha hb) hnf]
    exact scan_fuel_irrelevant (RealDom t) f1 rest.length rest _
      (by simp only [List.cons_append, List.length_cons, List.length_append] at hf; omega)
      le_rfl
  | binop op hgl hgr ihl ihr =>
    intro rest vs ops f hf hb
    rename_i l r
    have hshape : toStringN (RealDom t) (.binop op l r) ++ rest =
        '(' :: (toStringN (RealDom t) l ++ (opChar op ::
          (toStringN (RealDom t) r ++ (')' :: rest)))) := by
      show ('(' :: (toStringN (RealDom t) l ++ opChar op ::
        (toStringN (RealDom t) r ++ [')']))) ++ rest = _
      simp [List.cons_append, List.append_assoc]
    rw [hshape] at hf ⊢
    obtain ⟨f1, rfl⟩ : ∃ f1, f = f1 + 1 :=
      ⟨f - 1, by simp only [List.length_cons] at hf; omega⟩
    rw [scan_lparen]
    rw [ihl (opChar op :: (toStringN (RealDom t) r ++ (')' :: rest))) vs
      ('(' :: ops) f1
      (by simp only [List.length_cons, List.length_append] at hf ⊢; omega)
      ⟨opChar_not_num op, opChar_not_alpha op⟩]
    rw [List.length_cons, scan_op]
    rw [ihr (')' :: rest) (l :: vs) (opChar op :: '(' :: ops)
      (toStringN (RealDom t) r ++ (')' :: rest)).length le_rfl
      ⟨rfl, rfl⟩]
    rw [List.length_cons, scan_rparen_binop]

/-- Claim C3, amended: in the real domain, for every function-free
well-formed expression whose constants are exactly representable in the
six-decimal formatting, reparsing the stringification returns the identical
AST (hence an AST evaluating identically on any bindings). The complex
domain fails outright (see the counterexample), and function applications
over multi-operator arguments can reassociate, so both are excluded. -/
theorem c3_roundtrip_amended (t : Transc ℚ) (e : Node ℚ) (hg : GoodR e) :
    parseExpression (RealDom t) (toStringN (RealDom t) e) = .ok e := by
  unfold parseExpression
  have h := scan_toString t e hg [] [] [] (toStringN (RealDom t) e ++ []).length
    le_rfl trivial
  rw [List.append_nil] at h
  rw [h]
  rfl

/-- Witness for C3 (amended) at the concrete expression `3 + x` (constant
written in its exactly-formattable `n / 10⁶` shape). -/
theorem c3_roundtrip_amended_witness :
    parseExpression (RealDom trZ) (toStringN (RealDom trZ)
      (.binop .add (.const (((3000000 : ℕ) : ℚ) / 1000000)) (.var ['x']))) =
      .ok (.binop .add (.const (((3000000 : ℕ) : ℚ) / 1000000)) (.var ['x'])) :=
  c3_roundtrip_amended trZ _
    (GoodR.binop .add (GoodR.const 3000000)
      (GoodR.var ['x'] (by decide) (by decide) (by decide)))
